import Mathlib

/-!
Shallow embedding of `src/chatbot_main.py` (a minimal RAG chatbot).

Text is modelled as `List Char` (Python strings are indexed per character).
External libraries are modelled as explicit function parameters:
the sentence-transformer encoder (`encode` / `encode_batch`), sklearn's
`cosine_similarity` (`cos_sim`), and the Groq chat-completion call
(`call_llm`).  numpy's `argsort` is modelled as the stable ascending
argsort (numpy's tie order among equal keys is implementation defined;
the stable order is the deterministic model, matching `kind := stable`
and numpy's insertion sort on small arrays).
-/

namespace RAGChatbot

/-- Python whitespace predicate used by `str.strip` (ASCII whitespace). -/
def isPySpace (c : Char) : Bool :=
  c == ' ' || c == '\t' || c == '\n' || c == '\r' || c == Char.ofNat 11 || c == Char.ofNat 12

/-- Python `s.strip()`: remove leading and trailing whitespace. -/
def pyStrip (l : List Char) : List Char :=
  ((l.dropWhile isPySpace).reverse.dropWhile isPySpace).reverse

/-- Clamp a Python slice bound into `[0, n]`, resolving negative indices
from the end of the string as Python does. -/
def pyIndex (n : Nat) (i : Int) : Nat :=
  if i < 0 then ((n : Int) + i).toNat else min i.toNat n

/-- Python `l[a:b]` (step 1). -/
def pySlice (l : List Char) (a b : Int) : List Char :=
  let lo := pyIndex l.length a
  let hi := pyIndex l.length b
  (l.drop lo).take (hi - lo)

/-- The `while start < len(text)` loop of `chunk_text`, with explicit fuel so
that the (possibly non-terminating) degenerate configurations are
representable: `none` means the fuel ran out.  `start` is an `Int`, as the
Python variable can go negative when `overlap > chunk_size`. -/
def chunkLoop (text : List Char) (chunk_size overlap : Nat) : Nat → Int → Option (List (List Char))
  | 0, _ => none
  | fuel + 1, start =>
    if start < (text.length : Int) then
      match chunkLoop text chunk_size overlap fuel (start + chunk_size - overlap) with
      | none => none
      | some rest => some (pySlice text start (start + chunk_size) :: rest)
    else
      some []

/-- `chunk_text(text, chunk_size=400, overlap=50)`: run the window loop
(the fuel `text.length + 1` suffices whenever `overlap < chunk_size`),
then `[c.strip() for c in chunks if c.strip()]`. -/
def chunk_text (text : List Char) (chunk_size : Nat := 400) (overlap : Nat := 50) :
    List (List Char) :=
  let raw := (chunkLoop text chunk_size overlap (text.length + 1) 0).getD []
  raw.filterMap (fun c => let s := pyStrip c; if s = [] then none else some s)

/-- The module-level mutable store: `texts` and `embeddings` (initially `None`). -/
structure IndexState where
  texts : List (List Char)
  embeddings : Option (List (List ℚ))
deriving DecidableEq

/-- The state at process start: `texts = []`, `embeddings = None`. -/
def initState : IndexState := ⟨[], none⟩

/-- `build_index(chunks)`: reassign both globals, replacing the prior index. -/
def build_index (encode_batch : List (List Char) → List (List ℚ))
    (_st : IndexState) (chunks : List (List Char)) : IndexState :=
  ⟨chunks, some (encode_batch chunks)⟩

/-- Similarity key of index `i` in the score vector `sims`. -/
def simKey (sims : List ℚ) (i : Nat) : ℚ := sims.getD i 0

/-- Insert index `i` into an ascending-by-key list, after all equal keys. -/
def insertAsc (sims : List ℚ) (i : Nat) : List Nat → List Nat
  | [] => [i]
  | j :: rest =>
    if simKey sims i < simKey sims j then i :: j :: rest
    else j :: insertAsc sims i rest

/-- numpy `sims.argsort()` modelled as the stable ascending argsort:
indices `0..n-1` sorted by `sims` value, ties in original index order. -/
def argsortAsc (sims : List ℚ) : List Nat :=
  (List.range sims.length).foldl (fun acc i => insertAsc sims i acc) []

/-- Python `l[-k:]`: for `k = 0` this is `l[0:]`, the whole list; otherwise
the last `min k (length l)` elements. -/
def pyTakeLast (l : List α) (k : Nat) : List α :=
  if k = 0 then l else l.drop (l.length - k)

/-- `sims.argsort()[-k:][::-1]`: the indices `search` selects, in order. -/
def topkIndices (sims : List ℚ) (k : Nat) : List Nat :=
  (pyTakeLast (argsortAsc sims) k).reverse

/-- `search(query, k=3)`. -/
def search (encode : List Char → List ℚ) (cos_sim : List ℚ → List ℚ → ℚ)
    (st : IndexState) (query : List Char) (k : Nat := 3) : List (List Char) :=
  match st.embeddings with
  | none => []
  | some rows =>
    if st.texts.length = 0 then []
    else
      let q_emb := encode query
      let sims := rows.map (fun row => cos_sim q_emb row)
      (topkIndices sims k).map (fun i => st.texts.getD i [])

/-- `generate_answer(query, contexts)`: the credential check guards the
network call; the Groq client plus try/except is the parameter `call_llm`.
Missing key means `os.getenv` returned `None` (or the falsy empty string). -/
def generate_answer (api_key : Option String)
    (call_llm : List Char → List (List Char) → List Char)
    (query : List Char) (contexts : List (List Char)) : List Char :=
  if api_key = none ∨ api_key = some "" then
    "Error: GROK_API_KEY is not set in your .env file.".data
  else
    call_llm query contexts

/-- The `POST /ask` handler body (its try/except never fires in this model). -/
def ask (encode : List Char → List ℚ) (cos_sim : List ℚ → List ℚ → ℚ)
    (api_key : Option String) (call_llm : List Char → List (List Char) → List Char)
    (st : IndexState) (query : List Char) : List Char :=
  let ctx := search encode cos_sim st query 3
  if ctx = [] then "No documents indexed yet. Upload PDFs first.".data
  else generate_answer api_key call_llm query ctx

/-- The `POST /upload` handler after PDF extraction: `page_texts` is the
`all_text` list accumulated from `read_pdf` (one entry per file; pypdf is
external).  Returns the new state and the plain-text response. -/
def upload (encode_batch : List (List Char) → List (List ℚ))
    (page_texts : List (List Char)) (st : IndexState) : IndexState × List Char :=
  let full_text := List.intercalate ['\n'] page_texts
  let chunks := chunk_text full_text
  if chunks = [] then (st, "No text extracted.".data)
  else (build_index encode_batch st chunks,
        ("Indexed " ++ Nat.repr chunks.length ++ " chunks.").data)

/-- Number of rows of the stored embedding matrix (`None` counts as zero). -/
def rowCount (st : IndexState) : Nat :=
  match st.embeddings with
  | none => 0
  | some rows => rows.length

/-- The index invariant `len(texts) == len(embeddings)`. -/
def indexInv (st : IndexState) : Prop := st.texts.length = rowCount st

/-- Strict order describing the stable ascending argsort: smaller key
first, equal keys in ascending original-index order. -/
def ltKey (sims : List ℚ) (i j : Nat) : Prop :=
  simKey sims i < simKey sims j ∨ (simKey sims i = simKey sims j ∧ i < j)

/-- A trivial query encoder, used to instantiate witnesses. -/
def encZero : List Char → List ℚ := fun _ => []

/-- A constant similarity function (every pair ties), used in witnesses. -/
def simZero : List ℚ → List ℚ → ℚ := fun _ _ => 0

/-- A similarity function returning the first coordinate of the row. -/
def simHead : List ℚ → List ℚ → ℚ := fun _ row => row.getD 0 0

/-- A trivial LLM call, used to instantiate witnesses. -/
def llmZero : List Char → List (List Char) → List Char := fun _ _ => []

/-- A batch encoder producing one one-dimensional row per input text. -/
def encOne : List (List Char) → List (List ℚ) := fun l => l.map fun _ => [1]

/-- A one-chunk index state, used to instantiate witnesses. -/
def stOne : IndexState := ⟨[['a']], some [[1]]⟩

/-- A two-chunk index state whose rows are identical (similarity ties). -/
def stTie : IndexState := ⟨[['a'], ['b']], some [[1], [1]]⟩

/-- A three-chunk index state with distinct first coordinates. -/
def stThree : IndexState := ⟨[['a'], ['b'], ['c']], some [[1], [2], [3]]⟩

/-! ## Lemmas about the chunker loop -/

lemma chunkLoop_succ (text : List Char) (cs ov : Nat) (fuel : Nat) (start : Int) :
    chunkLoop text cs ov (fuel + 1) start =
      if start < (text.length : Int) then
        match chunkLoop text cs ov fuel (start + cs - ov) with
        | none => none
        | some rest => some (pySlice text start (start + cs) :: rest)
      else some [] := rfl

lemma chunkLoop_succ_isSome (text : List Char) (cs ov : Nat) (hov : ov < cs) :
    ∀ (fuel : Nat) (start : Int), 0 ≤ start → (text.length : Int) ≤ fuel + start →
      (chunkLoop text cs ov (fuel + 1) start).isSome := by
  intro fuel
  induction fuel with
  | zero =>
    intro start h0 hle
    rw [chunkLoop_succ]
    split
    · exfalso
      push_cast at hle
      omega
    · simp
  | succ f ih =>
    intro start h0 hle
    have hcast : (ov : Int) < (cs : Int) := by exact_mod_cast hov
    rw [chunkLoop_succ]
    split
    · have h1 : (0 : Int) ≤ start + cs - ov := by omega
      have h2 : (text.length : Int) ≤ f + (start + cs - ov) := by push_cast at hle ⊢; omega
      have h3 := ih (start + cs - ov) h1 h2
      rcases Option.isSome_iff_exists.mp h3 with ⟨r, hr⟩
      rw [hr]
      simp
    · simp

lemma chunkLoop_eq_none (text : List Char) (cs ov : Nat) (hov : cs ≤ ov) (hne : text ≠ []) :
    ∀ (fuel : Nat) (start : Int), start ≤ 0 → chunkLoop text cs ov fuel start = none := by
  intro fuel
  induction fuel with
  | zero => intro start _; rfl
  | succ f ih =>
    intro start hs
    have hlen : 0 < text.length := List.length_pos.mpr hne
    have hcast : (cs : Int) ≤ (ov : Int) := by exact_mod_cast hov
    rw [chunkLoop_succ]
    rw [if_pos (show start < (text.length : Int) by omega)]
    rw [ih (start + cs - ov) (by omega)]

lemma pySlice_length_le (l : List Char) (a : Int) (cs : Nat) (ha : 0 ≤ a) :
    (pySlice l a (a + cs)).length ≤ cs := by
  unfold pySlice pyIndex
  rw [if_neg (by omega), if_neg (by omega)]
  simp only [List.length_take, List.length_drop]
  omega

lemma chunkLoop_mem_length (text : List Char) (cs ov : Nat) (hov : ov ≤ cs) :
    ∀ (fuel : Nat) (start : Int), 0 ≤ start →
      ∀ r, chunkLoop text cs ov fuel start = some r → ∀ c ∈ r, c.length ≤ cs := by
  intro fuel
  induction fuel with
  | zero => intro start _ r h; simp [chunkLoop] at h
  | succ f ih =>
    intro start h0 r h
    have hcast : (ov : Int) ≤ (cs : Int) := by exact_mod_cast hov
    rw [chunkLoop_succ] at h
    split at h
    · cases hrec : chunkLoop text cs ov f (start + cs - ov) with
      | none => rw [hrec] at h; simp at h
      | some rest =>
        rw [hrec] at h
        simp only [Option.some.injEq] at h
        subst h
        intro c hc
        rcases List.mem_cons.mp hc with hc | hc
        · subst hc; exact pySlice_length_le text start cs h0
        · exact ih (start + cs - ov) (by omega) rest hrec c hc
    · simp only [Option.some.injEq] at h
      subst h
      intro c hc
      simp at hc

/-! ## Lemmas about `pyStrip` -/

lemma dropWhile_head_not (p : Char → Bool) :
    ∀ (l : List Char) (x : Char) (xs : List Char),
      l.dropWhile p = x :: xs → p x = false := by
  intro l
  induction l with
  | nil => intro x xs h; simp [List.dropWhile] at h
  | cons a l ih =>
    intro x xs h
    rw [List.dropWhile_cons] at h
    by_cases hp : p a = true
    · rw [if_pos hp] at h
      exact ih x xs h
    · rw [if_neg hp] at h
      cases h
      simpa using hp

lemma dropWhile_eq_self_of_heads (p : Char → Bool) (m : List Char)
    (hm : ∀ x xs, m = x :: xs → p x = false) : m.dropWhile p = m := by
  cases hc : m with
  | nil => simp
  | cons x xs => rw [List.dropWhile_cons, hm x xs hc]; simp

lemma pyStrip_idem (l : List Char) : pyStrip (pyStrip l) = pyStrip l := by
  unfold pyStrip
  have h2 : (((l.dropWhile isPySpace).reverse.dropWhile isPySpace).reverse).dropWhile isPySpace
      = ((l.dropWhile isPySpace).reverse.dropWhile isPySpace).reverse := by
    apply dropWhile_eq_self_of_heads
    intro x xs h
    have hsplit : (l.dropWhile isPySpace).reverse.takeWhile isPySpace
        ++ (l.dropWhile isPySpace).reverse.dropWhile isPySpace
        = (l.dropWhile isPySpace).reverse := List.takeWhile_append_dropWhile _ _
    have hA : l.dropWhile isPySpace
        = ((l.dropWhile isPySpace).reverse.dropWhile isPySpace).reverse
          ++ ((l.dropWhile isPySpace).reverse.takeWhile isPySpace).reverse := by
      calc l.dropWhile isPySpace
          = (l.dropWhile isPySpace).reverse.reverse := (List.reverse_reverse _).symm
        _ = ((l.dropWhile isPySpace).reverse.takeWhile isPySpace
              ++ (l.dropWhile isPySpace).reverse.dropWhile isPySpace).reverse := by rw [hsplit]
        _ = _ := by rw [List.reverse_append]
    rw [h] at hA
    exact dropWhile_head_not isPySpace l x _ (by simpa using hA)
  rw [h2, List.reverse_reverse]
  congr 1
  apply dropWhile_eq_self_of_heads
  intro x xs h
  exact dropWhile_head_not isPySpace (l.dropWhile isPySpace).reverse x xs h

lemma pyStrip_length_le (l : List Char) : (pyStrip l).length ≤ l.length := by
  have h1 := (List.dropWhile_sublist (l := (l.dropWhile isPySpace).reverse) isPySpace).length_le
  have h2 := (List.dropWhile_sublist (l := l) isPySpace).length_le
  unfold pyStrip
  simp only [List.length_reverse] at h1 ⊢
  omega

lemma chunk_text_mem (text : List Char) (cs ov : Nat) (hov : ov < cs) :
    ∀ c ∈ chunk_text text cs ov, c.length ≤ cs ∧ c ≠ [] ∧ pyStrip c = c := by
  intro c hc
  unfold chunk_text at hc
  rcases List.mem_filterMap.mp hc with ⟨raw, hraw, hfc⟩
  simp only at hfc
  by_cases hs : pyStrip raw = []
  · rw [if_pos hs] at hfc; cases hfc
  · rw [if_neg hs] at hfc
    cases hfc
    have hlen : raw.length ≤ cs := by
      cases hloop : chunkLoop text cs ov (text.length + 1) 0 with
      | none => rw [hloop] at hraw; simp at hraw
      | some r =>
        rw [hloop] at hraw
        simp only [Option.getD_some] at hraw
        exact chunkLoop_mem_length text cs ov hov.le (text.length + 1) 0 le_rfl r hloop raw hraw
    exact ⟨le_trans (pyStrip_length_le raw) hlen, hs, pyStrip_idem raw⟩

/-! ## Claims C3, C4, C1 -/

/-- C3: for every input text and parameters with `overlap < chunk_size` the
chunker's window loop terminates (fuel `text.length + 1` suffices from
`start = 0`), while for the unguarded degenerate configuration
`overlap ≥ chunk_size` the window never advances: on any non-empty text the
loop exhausts every fuel bound, i.e. runs forever. -/
theorem chunk_text_terminates (text : List Char) (cs ov : Nat) :
    (ov < cs → (chunkLoop text cs ov (text.length + 1) 0).isSome) ∧
    (cs ≤ ov → text ≠ [] → ∀ fuel, chunkLoop text cs ov fuel 0 = none) := by
  constructor
  · intro h
    exact chunkLoop_succ_isSome text cs ov h text.length 0 le_rfl (by simp)
  · intro h hne fuel
    exact chunkLoop_eq_none text cs ov h hne fuel 0 le_rfl

/-- Witness for C3 at `text = "a"`: with `chunk_size = 2 > overlap = 1` the
loop finishes, with `chunk_size = 1 ≤ overlap = 2` it runs out of any fuel. -/
theorem chunk_text_terminates_witness :
    (chunkLoop ['a'] 2 1 2 0).isSome ∧ chunkLoop ['a'] 1 2 5 0 = none := by
  constructor
  · exact (chunk_text_terminates ['a'] 2 1).1 (by decide)
  · exact (chunk_text_terminates ['a'] 1 2).2 (by decide) (by decide) 5

/-- C4: with `chunk_size > overlap ≥ 0`, every chunk produced by
`chunk_text` has length at most `chunk_size`, is non-empty, and is already
stripped of leading/trailing whitespace; chunking the empty string yields
the empty sequence. -/
theorem chunk_text_chunk_shape (text : List Char) (cs ov : Nat) (hov : ov < cs) :
    (∀ c ∈ chunk_text text cs ov, c.length ≤ cs ∧ c ≠ [] ∧ pyStrip c = c) ∧
    chunk_text [] cs ov = [] := by
  refine ⟨chunk_text_mem text cs ov hov, ?_⟩
  rfl

/-- Witness for C4 at `text = "ab"`, `chunk_size = 2`, `overlap = 1`. -/
theorem chunk_text_chunk_shape_witness :
    chunk_text ('a' :: 'b' :: []) 2 1 = [['a', 'b'], ['b']] ∧
    (['b'].length ≤ 2 ∧ ['b'] ≠ [] ∧ pyStrip ['b'] = ['b']) :=
  ⟨by decide, (chunk_text_chunk_shape ('a' :: 'b' :: []) 2 1 (by decide)).1 ['b'] (by decide)⟩

lemma pySlice_zero_full (text : List Char) (cs : Nat) (h : text.length ≤ cs) :
    pySlice text 0 (0 + (cs : Int)) = text := by
  unfold pySlice pyIndex
  rw [if_neg (by omega), if_neg (by omega)]
  have h1 : ((0 : Int) + cs).toNat = cs := by omega
  have h2 : ((0 : Int)).toNat = 0 := rfl
  rw [h1, h2]
  simp only [Nat.zero_min, List.drop_zero, Nat.sub_zero, min_eq_right h, List.take_length]

set_option maxRecDepth 100000 in
/-- C1 counterexample: the input of 360 characters `a` has length at most
the default window size 400 and a non-empty trimmed form, yet `chunk_text`
returns two chunks (the whole text and a trailing 10-character overlap
chunk), not the single whole-text chunk the claim requires. -/
theorem chunk_text_small_not_single :
    (List.replicate 360 'a').length ≤ 400 ∧
    pyStrip (List.replicate 360 'a') ≠ [] ∧
    chunk_text (List.replicate 360 'a') 400 50
      = [List.replicate 360 'a', List.replicate 10 'a'] ∧
    chunk_text (List.replicate 360 'a') 400 50 ≠ [pyStrip (List.replicate 360 'a')] := by
  refine ⟨by decide, by decide, by decide, by decide⟩

/-- C1 amended: for every input text whose length is at most
`chunk_size - overlap` (350 with the default parameters 400 and 50),
`chunk_text` returns a single chunk equal to the whole trimmed text, or the
empty sequence if the trimmed text is empty.  (For lengths in
`(chunk_size - overlap, chunk_size]` the window advances to 350 < length
and a second, trailing chunk is emitted, as the counterexample shows.) -/
theorem chunk_text_single_small (text : List Char) (h : text.length ≤ 350) :
    chunk_text text 400 50 = if pyStrip text = [] then [] else [pyStrip text] := by
  rcases Nat.eq_zero_or_pos text.length with h0 | h0
  · have hnil : text = [] := List.length_eq_zero.mp h0
    subst hnil
    rfl
  · obtain ⟨n, hn⟩ : ∃ n, text.length = n + 1 := ⟨text.length - 1, by omega⟩
    have hloop : chunkLoop text 400 50 (text.length + 1) 0 = some [text] := by
      rw [hn, chunkLoop_succ]
      rw [if_pos (show (0 : Int) < (text.length : Int) by omega)]
      have hinner : chunkLoop text 400 50 (n + 1) ((0 : Int) + (400 : Nat) - (50 : Nat))
          = some [] := by
        rw [chunkLoop_succ]
        rw [if_neg (show ¬((0 : Int) + (400 : Nat) - (50 : Nat) < (text.length : Int)) by
          push_cast
          omega)]
      rw [hinner]
      rw [pySlice_zero_full text 400 (by omega)]
    unfold chunk_text
    rw [hloop]
    simp only [Option.getD_some]
    by_cases hs : pyStrip text = []
    · simp [List.filterMap_cons, hs]
    · simp [List.filterMap_cons, hs]

/-- Witness for C1 (amended) at the short input `" hi "`. -/
theorem chunk_text_single_small_witness :
    chunk_text (' ' :: 'h' :: 'i' :: ' ' :: []) 400 50
      = if pyStrip (' ' :: 'h' :: 'i' :: ' ' :: []) = [] then []
        else [pyStrip (' ' :: 'h' :: 'i' :: ' ' :: [])] :=
  chunk_text_single_small (' ' :: 'h' :: 'i' :: ' ' :: []) (by decide)

/-! ## Lemmas about the retriever -/

lemma insertAsc_perm (sims : List ℚ) (i : Nat) :
    ∀ l : List Nat, (insertAsc sims i l).Perm (i :: l) := by
  intro l
  induction l with
  | nil => exact List.Perm.refl _
  | cons j rest ih =>
    unfold insertAsc
    split
    · exact List.Perm.refl _
    · exact (ih.cons j).trans (List.Perm.swap i j rest)

lemma foldl_insertAsc_perm (sims : List ℚ) :
    ∀ (l acc : List Nat),
      (l.foldl (fun a i => insertAsc sims i a) acc).Perm (l ++ acc) := by
  intro l
  induction l with
  | nil => intro acc; simp
  | cons x l ih =>
    intro acc
    simp only [List.foldl_cons, List.cons_append]
    exact (ih (insertAsc sims x acc)).trans
      ((List.Perm.append_left l (insertAsc_perm sims x acc)).trans List.perm_middle)

lemma argsortAsc_perm (sims : List ℚ) :
    (argsortAsc sims).Perm (List.range sims.length) := by
  have h := foldl_insertAsc_perm sims (List.range sims.length) []
  simpa using h

lemma argsortAsc_length (sims : List ℚ) : (argsortAsc sims).length = sims.length := by
  rw [(argsortAsc_perm sims).length_eq, List.length_range]

lemma insertAsc_pairwise (sims : List ℚ) (i : Nat) :
    ∀ l : List Nat, l.Pairwise (ltKey sims) → (∀ j ∈ l, j < i) →
      (insertAsc sims i l).Pairwise (ltKey sims) := by
  intro l
  induction l with
  | nil => intro _ _; simp [insertAsc, ltKey]
  | cons j rest ih =>
    intro hp hlt
    unfold insertAsc
    split
    · next hij =>
      refine List.Pairwise.cons ?_ hp
      intro m hm
      rcases List.mem_cons.mp hm with rfl | hm
      · exact Or.inl hij
      · have hjm : ltKey sims j m := (List.pairwise_cons.mp hp).1 m hm
        left
        rcases hjm with h | ⟨h, _⟩
        · exact lt_trans hij h
        · exact lt_of_lt_of_le hij (le_of_eq h)
    · next hij =>
      have hp' := List.pairwise_cons.mp hp
      refine List.Pairwise.cons ?_
        (ih hp'.2 (fun m hm => hlt m (List.mem_cons_of_mem j hm)))
      intro m hm
      have hm' : m ∈ i :: rest := (insertAsc_perm sims i rest).mem_iff.mp hm
      rcases List.mem_cons.mp hm' with rfl | hm'
      · have hji : simKey sims j ≤ simKey sims m := le_of_not_lt hij
        rcases lt_or_eq_of_le hji with h | h
        · exact Or.inl h
        · exact Or.inr ⟨h, hlt _ (List.mem_cons_self j rest)⟩
      · exact hp'.1 m hm'

lemma foldl_insertAsc_pairwise (sims : List ℚ) :
    ∀ (l acc : List Nat), acc.Pairwise (ltKey sims) →
      (∀ j ∈ acc, ∀ i ∈ l, j < i) → l.Pairwise (· < ·) →
      (l.foldl (fun a i => insertAsc sims i a) acc).Pairwise (ltKey sims) := by
  intro l
  induction l with
  | nil => intro acc h _ _; simpa using h
  | cons x l ih =>
    intro acc hacc hcross hl
    simp only [List.foldl_cons]
    apply ih
    · exact insertAsc_pairwise sims x acc hacc
        (fun j hj => hcross j hj x (List.mem_cons_self x l))
    · intro j hj i hi
      have hj' : j ∈ x :: acc := (insertAsc_perm sims x acc).mem_iff.mp hj
      rcases List.mem_cons.mp hj' with rfl | hj'
      · exact (List.pairwise_cons.mp hl).1 i hi
      · exact hcross j hj' i (List.mem_cons_of_mem x hi)
    · exact (List.pairwise_cons.mp hl).2

lemma argsortAsc_pairwise (sims : List ℚ) :
    (argsortAsc sims).Pairwise (ltKey sims) :=
  foldl_insertAsc_pairwise sims (List.range sims.length) [] List.Pairwise.nil
    (by intro j hj i hi; simp at hj) (List.pairwise_lt_range _)

lemma pyTakeLast_sublist (l : List α) (k : Nat) : (pyTakeLast l k).Sublist l := by
  unfold pyTakeLast
  split
  · exact List.Sublist.refl l
  · exact List.drop_sublist _ _

lemma topkIndices_pairwise (sims : List ℚ) (k : Nat) :
    (topkIndices sims k).Pairwise (fun i j => ltKey sims j i) := by
  unfold topkIndices
  rw [List.pairwise_reverse]
  exact List.Pairwise.sublist (pyTakeLast_sublist _ _) (argsortAsc_pairwise sims)

lemma topkIndices_mem (sims : List ℚ) (k : Nat) :
    ∀ i ∈ topkIndices sims k, i < sims.length := by
  intro i hi
  unfold topkIndices at hi
  rw [List.mem_reverse] at hi
  have h2 : i ∈ argsortAsc sims := (pyTakeLast_sublist _ _).subset hi
  have h3 : i ∈ List.range sims.length := (argsortAsc_perm sims).mem_iff.mp h2
  exact List.mem_range.mp h3

lemma topkIndices_length (sims : List ℚ) (k : Nat) (hk : k ≠ 0) :
    (topkIndices sims k).length = min k sims.length := by
  unfold topkIndices pyTakeLast
  rw [if_neg hk]
  simp only [List.length_reverse, List.length_drop, argsortAsc_length]
  omega

lemma topkIndices_ge (sims : List ℚ) (k : Nat) :
    ∀ j < sims.length, j ∉ topkIndices sims k →
      ∀ i ∈ topkIndices sims k, simKey sims j ≤ simKey sims i := by
  intro j hj hjn i hi
  unfold topkIndices at hjn hi
  rw [List.mem_reverse] at hjn hi
  have hjarg : j ∈ argsortAsc sims :=
    (argsortAsc_perm sims).mem_iff.mpr (List.mem_range.mpr hj)
  unfold pyTakeLast at hjn hi
  by_cases hk : k = 0
  · rw [if_pos hk] at hjn
    exact absurd hjarg hjn
  · rw [if_neg hk] at hjn hi
    have hsplit := List.take_append_drop ((argsortAsc sims).length - k) (argsortAsc sims)
    have hjtake : j ∈ (argsortAsc sims).take ((argsortAsc sims).length - k) := by
      rcases List.mem_append.mp (by rw [hsplit]; exact hjarg) with h | h
      · exact h
      · exact absurd h hjn
    have hpair := argsortAsc_pairwise sims
    rw [← hsplit] at hpair
    have hlt := (List.pairwise_append.mp hpair).2.2 j hjtake i hi
    rcases hlt with h | ⟨h, _⟩
    · exact le_of_lt h
    · exact le_of_eq h

lemma map_getD_range (l : List (List Char)) :
    (List.range l.length).map (fun i => l.getD i []) = l := by
  induction l with
  | nil => rfl
  | cons x l ih =>
    rw [List.length_cons, List.range_succ_eq_map, List.map_cons, List.map_map]
    rw [show ((fun i => (x :: l).getD i []) ∘ Nat.succ) = fun i => l.getD i [] from rfl, ih]
    rfl

lemma search_eq (encode : List Char → List ℚ) (cos_sim : List ℚ → List ℚ → ℚ)
    (st : IndexState) (query : List Char) (k : Nat) (rows : List (List ℚ))
    (hemb : st.embeddings = some rows) (htexts : st.texts ≠ []) :
    search encode cos_sim st query k
      = (topkIndices (rows.map (fun row => cos_sim (encode query) row)) k).map
          (fun i => st.texts.getD i []) := by
  unfold search
  rw [hemb]
  dsimp only
  rw [if_neg (fun h => htexts (List.length_eq_zero.mp h))]

lemma ask_eq (encode : List Char → List ℚ) (cos_sim : List ℚ → List ℚ → ℚ)
    (api_key : Option String) (call_llm : List Char → List (List Char) → List Char)
    (st : IndexState) (query : List Char) :
    ask encode cos_sim api_key call_llm st query
      = if search encode cos_sim st query 3 = []
        then "No documents indexed yet. Upload PDFs first.".data
        else generate_answer api_key call_llm query (search encode cos_sim st query 3) := rfl

/-! ## Claims C2, C5, C6, C7, C8, C9, C10 -/

/-- C2 counterexample: on an index of two chunks `a`, `b` whose similarity
scores to the query tie, `search` returns `[b, a]`, not the
original-index-order `[a, b]` the claim requires: the ascending stable
argsort is reversed, so equal keys come out in descending index order. -/
theorem search_tie_reversed :
    search encZero simZero stTie ['q'] 2 = [['b'], ['a']] ∧
    search encZero simZero stTie ['q'] 2 ≠ [['a'], ['b']] := by
  refine ⟨by decide, by decide⟩

/-- C2 amended: for every non-empty index satisfying the row/text-count
invariant and every `k ≥ 1`, `search` returns the texts of the
`min k n` rows with highest similarity score, in descending-score order
with ties broken by descending original index (the later chunk first, the
reverse of the claim's original-index order). -/
theorem search_topk (encode : List Char → List ℚ) (cos_sim : List ℚ → List ℚ → ℚ)
    (st : IndexState) (query : List Char) (k : Nat) (rows : List (List ℚ))
    (sims : List ℚ) (idx : List Nat)
    (hemb : st.embeddings = some rows) (htexts : st.texts ≠ [])
    (hrows : rows.length = st.texts.length) (hk : k ≠ 0)
    (hsims : sims = rows.map (fun row => cos_sim (encode query) row))
    (hidx : idx = topkIndices sims k) :
    search encode cos_sim st query k = idx.map (fun i => st.texts.getD i []) ∧
    idx.length = min k st.texts.length ∧
    (∀ i ∈ idx, i < st.texts.length) ∧
    idx.Pairwise (fun i j => ltKey sims j i) ∧
    (∀ j < st.texts.length, j ∉ idx → ∀ i ∈ idx, simKey sims j ≤ simKey sims i) := by
  subst hsims hidx
  have hlen : (rows.map (fun row => cos_sim (encode query) row)).length = st.texts.length := by
    simpa using hrows
  refine ⟨search_eq encode cos_sim st query k rows hemb htexts, ?_, ?_, ?_, ?_⟩
  · rw [topkIndices_length _ _ hk, hlen]
  · intro i hi
    have := topkIndices_mem _ k i hi
    omega
  · exact topkIndices_pairwise _ k
  · intro j hj hjn i hi
    exact topkIndices_ge _ k j (by omega) hjn i hi

/-- Witness for C2 (amended): three chunks with scores 1, 2, 3 and `k = 2`
select chunks 3 and 2 in that order, and the unselected score 1 is at most
the selected score 3. -/
theorem search_topk_witness :
    search encZero simHead stThree ['q'] 2 = [['c'], ['b']] ∧
    simKey [1, 2, 3] 0 ≤ simKey [1, 2, 3] 2 := by
  have h := search_topk encZero simHead stThree ['q'] 2 [[1], [2], [3]] [1, 2, 3] [2, 1]
    rfl (by decide) (by decide) (by decide) (by decide) (by decide)
  refine ⟨?_, h.2.2.2.2 0 (by decide) (by decide) 2 (by decide)⟩
  rw [h.1]
  decide

/-- C5: on an empty index (`embeddings` unset, as in the initial state, or
no stored texts) `search` returns the empty sequence for every query and
`k`, and the ask handler answers with the fixed no-documents message
without consulting the answer generator (the result is the same for every
`api_key` and `call_llm`). -/
theorem search_empty_index (encode : List Char → List ℚ) (cos_sim : List ℚ → List ℚ → ℚ)
    (api_key : Option String) (call_llm : List Char → List (List Char) → List Char)
    (st : IndexState) (query : List Char) (k : Nat)
    (h : st.embeddings = none ∨ st.texts = []) :
    search encode cos_sim st query k = [] ∧
    ask encode cos_sim api_key call_llm st query
      = "No documents indexed yet. Upload PDFs first.".data := by
  have hsearch : ∀ k2, search encode cos_sim st query k2 = [] := by
    intro k2
    obtain ⟨ts, emb⟩ := st
    cases emb with
    | none => rfl
    | some rows =>
      rcases h with h | h
      · exact Option.noConfusion h
      · have hts : ts = [] := h
        subst hts
        rfl
  refine ⟨hsearch k, ?_⟩
  rw [ask_eq, hsearch 3]
  simp

/-- Witness for C5 at the initial state. -/
theorem search_empty_index_witness :
    search encZero simZero initState ['q'] 3 = [] ∧
    ask encZero simZero none llmZero initState ['q']
      = "No documents indexed yet. Upload PDFs first.".data :=
  search_empty_index encZero simZero none llmZero initState ['q'] 3 (Or.inl rfl)

/-- C6: a successful upload replaces the index wholesale: building the
index for document B's 2 chunks after document A's 3 chunks leaves exactly
B's chunks, and no chunk of A (that is not also a chunk of B) remains. -/
theorem build_index_replaces (encode_batch : List (List Char) → List (List ℚ))
    (st : IndexState) (A B : List (List Char)) (_hA : A.length = 3) (hB : B.length = 2) :
    (build_index encode_batch (build_index encode_batch st A) B).texts = B ∧
    (build_index encode_batch (build_index encode_batch st A) B).texts.length = 2 ∧
    ∀ c ∈ A, c ∉ B →
      c ∉ (build_index encode_batch (build_index encode_batch st A) B).texts :=
  ⟨rfl, hB, fun _ _ hc => hc⟩

/-- Witness for C6 with concrete three- and two-chunk documents. -/
theorem build_index_replaces_witness :
    (build_index encOne (build_index encOne initState [['a'], ['b'], ['c']])
      [['d'], ['e']]).texts = [['d'], ['e']] ∧
    ['a'] ∉ (build_index encOne (build_index encOne initState [['a'], ['b'], ['c']])
      [['d'], ['e']]).texts := by
  have h := build_index_replaces encOne initState [['a'], ['b'], ['c']] [['d'], ['e']] rfl rfl
  exact ⟨h.1, h.2.2 ['a'] (by decide) (by decide)⟩

/-- C7: the invariant `len(texts) = number of embedding rows` holds in the
initial state (unset embeddings count as zero rows) and is preserved by
`build_index` and by the upload handler, for any batch encoder producing
one row per input text; `search`/`ask` do not touch the store (they are
modelled as pure readers). -/
theorem index_length_invariant :
    indexInv initState ∧
    (∀ (encode_batch : List (List Char) → List (List ℚ)) (st : IndexState)
        (chunks : List (List Char)),
      (encode_batch chunks).length = chunks.length →
      indexInv (build_index encode_batch st chunks)) ∧
    (∀ (encode_batch : List (List Char) → List (List ℚ))
        (page_texts : List (List Char)) (st : IndexState),
      indexInv st → (∀ l, (encode_batch l).length = l.length) →
      indexInv (upload encode_batch page_texts st).1) := by
  refine ⟨rfl, ?_, ?_⟩
  · intro enc st chunks h
    exact h.symm
  · intro enc pts st hst henc
    simp only [upload]
    rcases eq_or_ne (chunk_text (List.intercalate ['\n'] pts)) [] with hc | hc
    · rw [if_pos hc]
      exact hst
    · rw [if_neg hc]
      exact (henc _).symm

/-- Witness for C7: the invariant after a concrete `build_index` and a
concrete upload. -/
theorem index_length_invariant_witness :
    indexInv (build_index encOne initState [['a']]) ∧
    indexInv (upload encOne [['h', 'i']] initState).1 :=
  ⟨index_length_invariant.2.1 encOne initState [['a']] rfl,
   index_length_invariant.2.2 encOne [['h', 'i']] initState rfl
     (fun l => by simp [encOne])⟩

/-- C8: when chunking the accumulated extracted text yields no chunks, the
upload handler returns "No text extracted." and leaves the stored index
exactly as it was (whatever prior state it held, including empty). -/
theorem upload_no_text (encode_batch : List (List Char) → List (List ℚ))
    (page_texts : List (List Char)) (st : IndexState)
    (h : chunk_text (List.intercalate ['\n'] page_texts) = []) :
    upload encode_batch page_texts st = (st, "No text extracted.".data) := by
  simp only [upload]
  rw [if_pos h]

/-- Witness for C8: a single file whose extracted text is one space, on a
previously populated index. -/
theorem upload_no_text_witness :
    upload encOne [[' ']] stOne = (stOne, "No text extracted.".data) :=
  upload_no_text encOne [[' ']] stOne (by decide)

/-- C9: with no API credential configured (`None` or the falsy empty
string), `generate_answer` returns the fixed configuration-error string
for every context list — independent of the network call `call_llm`, i.e.
without attempting it — and so the ask handler on a populated index
returns that same fixed string. -/
theorem generate_answer_no_key (api_key : Option String)
    (hkey : api_key = none ∨ api_key = some "")
    (encode : List Char → List ℚ) (cos_sim : List ℚ → List ℚ → ℚ)
    (call_llm : List Char → List (List Char) → List Char)
    (st : IndexState) (query : List Char) (rows : List (List ℚ))
    (hemb : st.embeddings = some rows) (hrows : rows ≠ []) (htexts : st.texts ≠ []) :
    (∀ contexts, generate_answer api_key call_llm query contexts
        = "Error: GROK_API_KEY is not set in your .env file.".data) ∧
    ask encode cos_sim api_key call_llm st query
      = "Error: GROK_API_KEY is not set in your .env file.".data := by
  have hgen : ∀ contexts, generate_answer api_key call_llm query contexts
      = "Error: GROK_API_KEY is not set in your .env file.".data := by
    intro contexts
    unfold generate_answer
    rw [if_pos hkey]
  refine ⟨hgen, ?_⟩
  have hne : search encode cos_sim st query 3 ≠ [] := by
    rw [search_eq encode cos_sim st query 3 rows hemb htexts]
    intro hcon
    have h1 := congrArg List.length hcon
    rw [List.length_map, topkIndices_length _ _ (by decide)] at h1
    rw [List.length_map, List.length_nil] at h1
    have h2 : rows.length ≠ 0 := fun h => hrows (List.length_eq_zero.mp h)
    omega
  rw [ask_eq, if_neg hne]
  exact hgen _

/-- Witness for C9: a one-chunk index and a missing key. -/
theorem generate_answer_no_key_witness :
    generate_answer none llmZero ['q'] []
      = "Error: GROK_API_KEY is not set in your .env file.".data ∧
    ask encZero simZero none llmZero stOne ['q']
      = "Error: GROK_API_KEY is not set in your .env file.".data := by
  have h := generate_answer_no_key none (Or.inl rfl) encZero simZero llmZero stOne ['q']
    [[1]] rfl (by decide) (by decide)
  exact ⟨h.1 [], h.2⟩

/-- C10: on a non-empty index satisfying the row/text-count invariant,
`search` with `k = 0` returns all indexed chunk texts (a permutation of
the whole store, in descending-score order with ties by descending index),
not the empty sequence: `argsort()[-0:]` is the slice from 0, the whole
sorted array. -/
theorem search_k_zero (encode : List Char → List ℚ) (cos_sim : List ℚ → List ℚ → ℚ)
    (st : IndexState) (query : List Char) (rows : List (List ℚ))
    (sims : List ℚ) (idx : List Nat)
    (hemb : st.embeddings = some rows) (htexts : st.texts ≠ [])
    (hrows : rows.length = st.texts.length)
    (hsims : sims = rows.map (fun row => cos_sim (encode query) row))
    (hidx : idx = topkIndices sims 0) :
    search encode cos_sim st query 0 = idx.map (fun i => st.texts.getD i []) ∧
    idx.Perm (List.range st.texts.length) ∧
    (search encode cos_sim st query 0).Perm st.texts ∧
    idx.Pairwise (fun i j => ltKey sims j i) ∧
    search encode cos_sim st query 0 ≠ [] := by
  subst hsims hidx
  have hlen : (rows.map (fun row => cos_sim (encode query) row)).length = st.texts.length := by
    simpa using hrows
  have heq := search_eq encode cos_sim st query 0 rows hemb htexts
  have hperm : (topkIndices (rows.map (fun row => cos_sim (encode query) row)) 0).Perm
      (List.range st.texts.length) := by
    unfold topkIndices pyTakeLast
    rw [if_pos rfl]
    exact (List.reverse_perm _).trans ((argsortAsc_perm _).trans (by rw [hlen]))
  have hperm2 : (search encode cos_sim st query 0).Perm st.texts := by
    rw [heq]
    exact (hperm.map _).trans (by rw [map_getD_range st.texts])
  refine ⟨heq, hperm, hperm2, topkIndices_pairwise _ 0, ?_⟩
  intro hcon
  have h1 := hperm2.length_eq
  rw [hcon, List.length_nil] at h1
  exact htexts (List.length_eq_zero.mp h1.symm)

/-- Witness for C10: three chunks with scores 1, 2, 3 and `k = 0` return
all three texts in descending-score order. -/
theorem search_k_zero_witness :
    search encZero simHead stThree ['q'] 0 = [['c'], ['b'], ['a']] ∧
    search encZero simHead stThree ['q'] 0 ≠ [] := by
  have h := search_k_zero encZero simHead stThree ['q'] [[1], [2], [3]] [1, 2, 3] [2, 1, 0]
    rfl (by decide) (by decide) (by decide) (by decide)
  refine ⟨?_, h.2.2.2.2⟩
  rw [h.1]
  decide

end RAGChatbot
